import Mathlib

/-
Shallow embedding of the gblink probabilistic data structures
(BloomFilter, CuckooFilter, HyperLogLog) and verification of the
specification claims about them.

Modelling conventions:
- Go byte strings are `List Nat` (each entry a byte value).
- Machine integers (uint32/uint64/uint8) are `Nat` with explicit `% 2 ^ w`
  where wrapping matters; `uint32(x)` is `x % 2 ^ 32`.
- The injected hash objects (`hash.Hash64` for CuckooFilter, `Hasher` for
  HyperLogLog) are pure functions `List Nat → Nat`: the Go objects are
  Reset before every use, so `Reset/Write/Write/Sum64` is the pure function
  applied to the concatenation of the written byte slices.
- Mutating methods become functions returning the updated structure
  (paired with the Go return value where there is one).
- Go float64 arithmetic in `Count` and the Bloom sizing helpers is modelled
  over ℝ; `math.Log` is `Real.log`, `math.Pow(2, -v)` for a register value
  `v : ℕ` is `(2 : ℝ) ^ (-(v : ℤ))`.
- A Go panic (nil-pointer dereference in the cuckoo kick loop) is modelled
  by `Option`: `none` is the panic. Slice reads `xs[i]` are `List.getD`;
  all theorems carry the well-formedness hypotheses (positive size, array
  length equal to `Size`) under which every read index is proved in bounds,
  so the total `getD`/`set` model agrees with Go on those states.
-/

namespace Gblink

/-
Bloom filter (bloom_filter source file, package gblink).
-/

/-- The 32-bit FNV-1a hash over a byte sequence: `hash/fnv.New32a` followed by
`Write`s of the byte slices and `Sum32`. Offset basis 2166136261, prime
16777619, arithmetic modulo `2 ^ 32`. -/
def fnv32a (data : List Nat) : Nat :=
  data.foldl (fun h b => ((h ^^^ b) * 16777619) % 2 ^ 32) 2166136261

/-- `BloomFilter` holds the bitset (Go `[]bool`) and the number `k` of hash
probes per operation. -/
structure BloomFilter where
  bitset : List Bool
  k : Nat

/-- `NewBloomFilter(m, k)`: `m` cleared bits, `k` hash functions. -/
def NewBloomFilter (m k : Nat) : BloomFilter :=
  { bitset := List.replicate m false, k := k }

/-- `bf.hash(item, seed)`: FNV-1a of the item bytes followed by the single
byte `byte(seed)` (= `seed % 256`), reduced modulo `len(bf.bitset)`. -/
def BloomFilter.hash (bf : BloomFilter) (item : List Nat) (seed : Nat) : Nat :=
  fnv32a (item ++ [seed % 256]) % bf.bitset.length

/-- `bf.Add(item)`: for each `i < k`, set bit `bf.hash(item, i)`. The bitset
length is unchanged by `set`, so hashing against `bf.bitset.length` at every
iteration equals hashing against the original length, as in the Go code. -/
def BloomFilter.Add (bf : BloomFilter) (item : List Nat) : BloomFilter :=
  { bf with
    bitset := (List.range bf.k).foldl (fun bs i => bs.set (bf.hash item i) true) bf.bitset }

/-- `bf.Contains(item)`: true iff all `k` probed bits are set. -/
def BloomFilter.Contains (bf : BloomFilter) (item : List Nat) : Bool :=
  (List.range bf.k).all fun i => bf.bitset.getD (bf.hash item i) false

/-- A finite sequence of `Add` calls. -/
def bloomAddAll (bf : BloomFilter) (items : List (List Nat)) : BloomFilter :=
  items.foldl BloomFilter.Add bf

/-- `CalculateBloomFilterBitSetSize(numItems, falsePositiveRate)` before the
final `uint` conversion: the Go source computes
`float64(numItems) * math.Log(falsePositiveRate) / math.Pow(math.Log(2), 2)`
with NO negation. -/
noncomputable def CalculateBloomFilterBitSetSize (numItems falsePositiveRate : ℝ) : ℝ :=
  numItems * Real.log falsePositiveRate / (Real.log 2) ^ 2

/-- The size the spec and the package doc comment claim:
`m = -n·ln(p)/(ln 2)²`. -/
noncomputable def claimedBloomBitSetSize (numItems falsePositiveRate : ℝ) : ℝ :=
  -(numItems * Real.log falsePositiveRate) / (Real.log 2) ^ 2

/-- `CalculateBloomFilterNumHashFunctions(bitSetSize, numItems)` before the
final `uint` conversion. -/
noncomputable def CalculateBloomFilterNumHashFunctions (bitSetSize numItems : ℝ) : ℝ :=
  bitSetSize / numItems * Real.log 2

/-
Cuckoo filter (cuckoo_filter.go).
-/

/-- Maximum number of kicks before giving up on an insert. -/
def MaxNumKicks : Nat := 500

/-- Size of the fingerprint in bits. -/
def FpSize : Nat := 32

/-- A bucket stores a single fingerprint. -/
structure Bucket where
  Fingerprint : Nat
  deriving DecidableEq

/-- `CuckooFilter`: bucket array of `Size` slots, each `nil` (`none`) or one
fingerprint; the injected 64-bit hash function; the kick bound. -/
structure CuckooFilter where
  Size : Nat
  HashFn : List Nat → Nat
  MaxKicks : Nat
  BucketArr : List (Option Bucket)

/-- `NewCuckooFilter(size, hashFn)`: `size` empty buckets, `MaxKicks = 500`. -/
def NewCuckooFilter (size : Nat) (hashFn : List Nat → Nat) : CuckooFilter :=
  { Size := size, HashFn := hashFn, MaxKicks := MaxNumKicks
    BucketArr := List.replicate size none }

/-- `cf.hash(item, seed)`: `uint32(HashFn.Sum64(item ++ [byte(seed)])) % Size`.
`uint32(·)` is `% 2 ^ 32`, `byte(seed)` is `seed % 256`. -/
def CuckooFilter.hash (cf : CuckooFilter) (item : List Nat) (seed : Nat) : Nat :=
  (cf.HashFn (item ++ [seed % 256]) % 2 ^ 32) % cf.Size

/-- `cf.fingerprint(item) = cf.hash(item, 0) & ((1 << FpSize) - 1)`. -/
def CuckooFilter.fingerprint (cf : CuckooFilter) (item : List Nat) : Nat :=
  cf.hash item 0 &&& (2 ^ FpSize - 1)

/-- Read of `cf.BucketArr[i]` (in-bounds on all states the theorems range
over; see the length hypotheses there). -/
def bucketGet (bs : List (Option Bucket)) (i : Nat) : Option Bucket :=
  bs.getD i none

/-- The test `BucketArr[i] != nil && BucketArr[i].Fingerprint == fp`. -/
def bucketMatches (bs : List (Option Bucket)) (i fp : Nat) : Bool :=
  match bucketGet bs i with
  | some b => b.Fingerprint == fp
  | none => false

/-- `cf.contains(item, hash1, hash2)` (the unexported helper). -/
def CuckooFilter.contains (cf : CuckooFilter) (item : List Nat) (hash1 hash2 : Nat) : Bool :=
  bucketMatches cf.BucketArr hash1 (cf.fingerprint item)
    || bucketMatches cf.BucketArr hash2 (cf.fingerprint item)

/-- `cf.insertItemIntoBucket(fingerprint, hash)`: empty bucket is filled
(true); a bucket already holding the fingerprint reports true; otherwise
false with no change. -/
def insertItemIntoBucket (bs : List (Option Bucket)) (fingerprint h : Nat) :
    Bool × List (Option Bucket) :=
  match bucketGet bs h with
  | none => (true, bs.set h (some ⟨fingerprint⟩))
  | some b => if b.Fingerprint = fingerprint then (true, bs) else (false, bs)

/-- The kick loop of `cf.insertItem`. `hsw` is the value of the per-iteration
`hash := cf.hash(item, hash1)` (a pure function of loop-invariant data, hence
passed in once). The swap line dereferences `BucketArr[hsw]`; on a `nil`
bucket that is a Go panic, modelled as `none`. Fuel counts the remaining
iterations of `for i := 0; i < MaxKicks; i++`. -/
def insertItemGo (hash1 hash2 hsw : Nat) : Nat → Nat → List (Option Bucket) →
    Option (Bool × List (Option Bucket))
  | _, 0, bs => some (false, bs)
  | fp, fuel + 1, bs =>
    match insertItemIntoBucket bs fp hash1 with
    | (true, bs2) => some (true, bs2)
    | (false, _) =>
      match insertItemIntoBucket bs fp hash2 with
      | (true, bs2) => some (true, bs2)
      | (false, _) =>
        match bucketGet bs hsw with
        | none => none
        | some b => insertItemGo hash1 hash2 hsw b.Fingerprint fuel (bs.set hsw (some ⟨fp⟩))

/-- `cf.insertItem(item, hash1, hash2)`. -/
def CuckooFilter.insertItem (cf : CuckooFilter) (item : List Nat) (hash1 hash2 : Nat) :
    Option (Bool × CuckooFilter) :=
  match insertItemGo hash1 hash2 (cf.hash item hash1) (cf.fingerprint item)
      cf.MaxKicks cf.BucketArr with
  | none => none
  | some (b, bs) => some (b, { cf with BucketArr := bs })

/-- `cf.insert(item, isInsert)`. -/
def CuckooFilter.insert (cf : CuckooFilter) (item : List Nat) (isIns : Bool) :
    Option (Bool × CuckooFilter) :=
  let hash1 := cf.hash item 0
  let hash2 := cf.hash item hash1
  if cf.contains item hash1 hash2 then some (true, cf)
  else if isIns then cf.insertItem item hash1 hash2
  else some (false, cf)

/-- `cf.Add(item) = cf.insert(item, true)`. -/
def CuckooFilter.Add (cf : CuckooFilter) (item : List Nat) : Option (Bool × CuckooFilter) :=
  cf.insert item true

/-- `cf.Contains(item)`. -/
def CuckooFilter.Contains (cf : CuckooFilter) (item : List Nat) : Bool :=
  let hash1 := cf.hash item 0
  let hash2 := cf.hash item hash1
  cf.contains item hash1 hash2

/-- `cf.Delete(item)`: clear whichever of the two candidate buckets matches
the fingerprint; report whether one was cleared. -/
def CuckooFilter.Delete (cf : CuckooFilter) (item : List Nat) : Bool × CuckooFilter :=
  let hash1 := cf.hash item 0
  let hash2 := cf.hash item hash1
  let fp := cf.fingerprint item
  if bucketMatches cf.BucketArr hash1 fp then
    (true, { cf with BucketArr := cf.BucketArr.set hash1 none })
  else if bucketMatches cf.BucketArr hash2 fp then
    (true, { cf with BucketArr := cf.BucketArr.set hash2 none })
  else (false, cf)

/-- An occupied bucket at index `i` holds `i` itself as fingerprint (a
consequence of `fingerprint = hash1`, see the C9 theorem). -/
def bucketOK (o : Option Bucket) (i : Nat) : Bool :=
  match o with
  | none => true
  | some b => b.Fingerprint == i

/-- Well-formedness invariant of every cuckoo filter reachable from
`NewCuckooFilter` (with a uint32 size, hence `Size ≤ 2 ^ 32`) through
`Add`/`Delete` calls: positive size, positive kick bound (`MaxKicks = 500`),
bucket array of length `Size`, and every occupied bucket holding its own
index as fingerprint. -/
def CuckooInv (cf : CuckooFilter) : Prop :=
  0 < cf.Size ∧ cf.Size ≤ 2 ^ 32 ∧ 0 < cf.MaxKicks ∧
    cf.BucketArr.length = cf.Size ∧
    ∀ i, i < cf.BucketArr.length → bucketOK (bucketGet cf.BucketArr i) i = true

/-
HyperLogLog (hyper_log_log.go). The precision field is named `m` in the
source; `alphaM` (fixed to `getAlpha m` at construction, with `m` immutable)
is not stored but recomputed as `getAlpha h.m` where `Count` uses it.
-/

/-- `HyperLogLog`: precision `m`, `2 ^ m` uint8 registers, injected hasher. -/
structure HyperLogLog where
  m : Nat
  registers : List Nat
  hasher : List Nat → Nat

/-- `NewHyperLogLog(m, hasher)`: errors (Go
`errors.New("m must be between 4 and 16")`, modelled as `none`) when
`m < 4 || m > 16`; otherwise `1 << m` zero registers. -/
def NewHyperLogLog (m : Nat) (hasher : List Nat → Nat) : Option HyperLogLog :=
  if m < 4 ∨ m > 16 then none
  else some { m := m, registers := List.replicate (2 ^ m) 0, hasher := hasher }

/-- The loop of `getRank`: `for (hashVal&1) == 0 && rank <= p { rank++;
hashVal >>= 1 }`. `fuel` is the number of allowed increments left, i.e.
`p - rank + 1`; the guard `rank <= p` is `fuel > 0`. -/
def getRankGo (v rank fuel : Nat) : Nat :=
  if v % 2 = 0 then
    match fuel with
    | 0 => rank
    | f + 1 => getRankGo (v / 2) (rank + 1) f
  else rank

/-- `getRank(hashVal, p)`: rank starts at 1. -/
def getRank (hashVal p : Nat) : Nat :=
  getRankGo hashVal 1 p

/-- `hashVal := h.hasher.Sum64(item)` (a uint64). -/
def hllHashVal (h : HyperLogLog) (item : List Nat) : Nat :=
  h.hasher item % 2 ^ 64

/-- `index := hashVal & ((1 << h.m) - 1)`. -/
def hllIndex (h : HyperLogLog) (item : List Nat) : Nat :=
  hllHashVal h item &&& (2 ^ h.m - 1)

/-- `hashVal >> h.m`. -/
def hllShifted (h : HyperLogLog) (item : List Nat) : Nat :=
  hllHashVal h item >>> h.m

/-- `rank := getRank(hashVal >> h.m, 64 - int(h.m))`. -/
def hllRank (h : HyperLogLog) (item : List Nat) : Nat :=
  getRank (hllShifted h item) (64 - h.m)

/-- `h.Add(item)`: update `registers[index]` when the observed rank exceeds
it. The stored value `uint8(rank)` never wraps since `rank ≤ 65 < 256`. -/
def HyperLogLog.Add (h : HyperLogLog) (item : List Nat) : HyperLogLog :=
  if hllRank h item > h.registers.getD (hllIndex h item) 0 then
    { h with registers := h.registers.set (hllIndex h item) (hllRank h item) }
  else h

/-- `getAlpha(m)`: bias-correction constant. -/
noncomputable def getAlpha (m : Nat) : ℝ :=
  if m = 4 then 0.673
  else if m = 5 then 0.697
  else if m = 6 then 0.709
  else 0.7213 / (1 + 1.079 / (2 ^ m : ℝ))

/-- The raw estimate the Go `Count` actually computes:
`sum := Σ math.Pow(2, -registers[i])`, then
`estimate := h.alphaM * math.Pow(float64(1)/sum, 2)` — that is
`alpha * (1/sum)²`, not the textbook `alpha * m² / sum`. -/
noncomputable def hllRawEstimate (h : HyperLogLog) : ℝ :=
  getAlpha h.m * (1 / ((h.registers.map fun v => (2 : ℝ) ^ (-(v : ℤ))).sum)) ^ 2

/-- Number of zero registers. -/
def hllZeros (h : HyperLogLog) : Nat :=
  (h.registers.filter fun v => v == 0).length

/-- `h.Count()` before the final `uint64` conversion, with the source's
branch structure: small-range (linear counting) correction inside the
`estimate <= 2.5*len` branch when some register is zero, else-if large-range
correction past `2^32/30`. -/
noncomputable def HyperLogLog.CountReal (h : HyperLogLog) : ℝ :=
  let estimate := hllRawEstimate h
  if estimate ≤ 2.5 * (h.registers.length : ℝ) then
    if hllZeros h ≠ 0 then
      (h.registers.length : ℝ) * Real.log ((h.registers.length : ℝ) / (hllZeros h : ℝ))
    else estimate
  else if estimate > (2 ^ 32 : ℝ) / 30 then
    -(2 : ℝ) ^ (64 : ℕ) * Real.log (1 - estimate / (2 : ℝ) ^ (64 : ℕ))
  else estimate

/-- `h.Count()` with the Go `uint64(·)` conversion (truncation toward zero;
the estimate is nonnegative in every branch reachable from valid states). -/
noncomputable def HyperLogLog.Count (h : HyperLogLog) : Nat :=
  (⌊h.CountReal⌋).toNat

/-- The raw estimate as claim C3 states it: `alpha * m² / Σ 2^(-registers[i])`
with `m` the register count. -/
noncomputable def claimedRawEstimate (h : HyperLogLog) : ℝ :=
  getAlpha h.m * (h.registers.length : ℝ) ^ 2
    / ((h.registers.map fun v => (2 : ℝ) ^ (-(v : ℤ))).sum)

/-- `Count` as claim C3 describes it: claimed raw estimate, linear counting
when it is `≤ 2.5m` with a zero register, large-range correction past
`2^32/30`. -/
noncomputable def claimedCountReal (h : HyperLogLog) : ℝ :=
  let estimate := claimedRawEstimate h
  if estimate ≤ 2.5 * (h.registers.length : ℝ) ∧ hllZeros h ≠ 0 then
    (h.registers.length : ℝ) * Real.log ((h.registers.length : ℝ) / (hllZeros h : ℝ))
  else if estimate > (2 ^ 32 : ℝ) / 30 then
    -(2 : ℝ) ^ (64 : ℕ) * Real.log (1 - estimate / (2 : ℝ) ^ (64 : ℕ))
  else estimate

/-- The amended C3 description: identical to `claimedCountReal` except that
the raw estimate is the one the code computes, `alpha * (1/sum)²`. -/
noncomputable def amendedCountReal (h : HyperLogLog) : ℝ :=
  let estimate := hllRawEstimate h
  if estimate ≤ 2.5 * (h.registers.length : ℝ) ∧ hllZeros h ≠ 0 then
    (h.registers.length : ℝ) * Real.log ((h.registers.length : ℝ) / (hllZeros h : ℝ))
  else if estimate > (2 ^ 32 : ℝ) / 30 then
    -(2 : ℝ) ^ (64 : ℕ) * Real.log (1 - estimate / (2 : ℝ) ^ (64 : ℕ))
  else estimate

/-
Concrete fixtures used by counterexamples and witnesses.
-/

/-- A tiny injected hash: the first byte of the written data. -/
def wHash (l : List Nat) : Nat :=
  l.headD 0

/-- A cuckoo filter with 4 buckets over `wHash`. -/
def cuckooW : CuckooFilter :=
  NewCuckooFilter 4 wHash

/-- The filter after `cuckooW.Add [1]` (which succeeds). -/
def cuckooW1 : CuckooFilter :=
  ((cuckooW.Add [1]).getD (false, cuckooW)).2

/-- The filter after `cuckooW1.Delete [1]` (which succeeds). -/
def cuckooW2 : CuckooFilter :=
  (cuckooW1.Delete [1]).2

/-- Precision-4 HyperLogLog state with all 16 registers equal to 7: the code
and claim C3 disagree on its count. -/
def hllC3ex : HyperLogLog :=
  { m := 4, registers := List.replicate 16 7, hasher := fun _ => 0 }

/-- Fresh precision-4 HyperLogLog whose hasher returns 0: adding any item
observes 60 zero bits after the 4 index bits, so the code computes rank 61,
one beyond the cap of 60 stated in claim C5. -/
def hllC5ex : HyperLogLog :=
  { m := 4, registers := List.replicate 16 0, hasher := fun _ => 0 }

/-- Fresh precision-4 HyperLogLog with a constant hasher, for witnesses. -/
def hllW : HyperLogLog :=
  { m := 4, registers := List.replicate 16 0, hasher := fun _ => 5 }

/-
Generic lemmas about List.set / List.getD used throughout.
-/

theorem listGetDSetSelf {α : Type} : ∀ (l : List α) (j : Nat) (a d : α),
    j < l.length → (l.set j a).getD j d = a := by
  intro l
  induction l with
  | nil => intro j a d h; simp at h
  | cons x t ih =>
    intro j a d h
    cases j with
    | zero => rfl
    | succ j => exact ih j a d (by simpa using h)

theorem listGetDSetNe {α : Type} : ∀ (l : List α) (n j : Nat) (a d : α),
    n ≠ j → (l.set n a).getD j d = l.getD j d := by
  intro l
  induction l with
  | nil => intro n j a d _; rfl
  | cons x t ih =>
    intro n j a d hne
    cases n with
    | zero =>
      cases j with
      | zero => exact absurd rfl hne
      | succ j => rfl
    | succ n =>
      cases j with
      | zero => rfl
      | succ j => exact ih n j a d (fun h => hne (by rw [h]))

/-
Bloom filter lemmas (claim C1).
-/

theorem bloomFoldLength (g : Nat → Nat) :
    ∀ (l : List Nat) (bs : List Bool),
      (l.foldl (fun b i => b.set (g i) true) bs).length = bs.length := by
  intro l
  induction l with
  | nil => intro bs; rfl
  | cons a t ih => intro bs; rw [List.foldl_cons, ih, List.length_set]

theorem bloomFoldMono (g : Nat → Nat) :
    ∀ (l : List Nat) (bs : List Bool) (j : Nat),
      bs.getD j false = true →
      (l.foldl (fun b i => b.set (g i) true) bs).getD j false = true := by
  intro l
  induction l with
  | nil => intro bs j h; exact h
  | cons a t ih =>
    intro bs j h
    rw [List.foldl_cons]
    apply ih
    by_cases hj : g a = j
    · subst hj
      have hlt : g a < bs.length := by
        by_contra hge
        rw [List.getD_eq_default _ _ (Nat.le_of_not_lt hge)] at h
        exact Bool.noConfusion h
      exact listGetDSetSelf _ _ _ _ hlt
    · rw [listGetDSetNe _ _ _ _ _ hj]; exact h

theorem bloomFoldMem (g : Nat → Nat) :
    ∀ (l : List Nat) (bs : List Bool) (i : Nat),
      i ∈ l → g i < bs.length →
      (l.foldl (fun b j => b.set (g j) true) bs).getD (g i) false = true := by
  intro l
  induction l with
  | nil => intro bs i h _; cases h
  | cons a t ih =>
    intro bs i hmem hlt
    rw [List.foldl_cons]
    rcases List.mem_cons.mp hmem with rfl | hmem2
    · exact bloomFoldMono g t _ _ (listGetDSetSelf _ _ _ _ hlt)
    · exact ih _ i hmem2 (by rw [List.length_set]; exact hlt)

theorem bloom_add_length (bf : BloomFilter) (x : List Nat) :
    (bf.Add x).bitset.length = bf.bitset.length :=
  bloomFoldLength (fun i => bf.hash x i) (List.range bf.k) bf.bitset

theorem bloom_add_hash (bf : BloomFilter) (x y : List Nat) (i : Nat) :
    (bf.Add y).hash x i = bf.hash x i := by
  unfold BloomFilter.hash
  rw [bloom_add_length]

theorem bloom_hash_lt (bf : BloomFilter) (x : List Nat) (i : Nat)
    (hm : 0 < bf.bitset.length) : bf.hash x i < bf.bitset.length :=
  Nat.mod_lt _ hm

theorem bloom_add_contains (bf : BloomFilter) (x : List Nat)
    (hm : 0 < bf.bitset.length) : (bf.Add x).Contains x = true := by
  unfold BloomFilter.Contains
  rw [List.all_eq_true]
  intro i hi
  rw [bloom_add_hash]
  exact bloomFoldMem (fun j => bf.hash x j) (List.range bf.k) bf.bitset i hi
    (bloom_hash_lt bf x i hm)

theorem bloom_contains_mono (bf : BloomFilter) (x y : List Nat)
    (h : bf.Contains x = true) : (bf.Add y).Contains x = true := by
  unfold BloomFilter.Contains at h ⊢
  rw [List.all_eq_true] at h ⊢
  intro i hi
  rw [bloom_add_hash]
  exact bloomFoldMono (fun j => bf.hash y j) (List.range bf.k) bf.bitset
    (bf.hash x i) (h i hi)

theorem bloom_addAll_mono : ∀ (items : List (List Nat)) (bf : BloomFilter) (x : List Nat),
    bf.Contains x = true → (bloomAddAll bf items).Contains x = true := by
  intro items
  induction items with
  | nil => intro bf x h; exact h
  | cons a t ih => intro bf x h; exact ih (bf.Add a) x (bloom_contains_mono bf x a h)

theorem bloom_main : ∀ (items : List (List Nat)) (bf : BloomFilter) (x : List Nat),
    0 < bf.bitset.length → x ∈ items → (bloomAddAll bf items).Contains x = true := by
  intro items
  induction items with
  | nil => intro bf x _ hx; cases hx
  | cons a t ih =>
    intro bf x hm hx
    rcases List.mem_cons.mp hx with rfl | hx2
    · exact bloom_addAll_mono t (bf.Add x) x (bloom_add_contains bf x hm)
    · exact ih (bf.Add a) x (by rw [bloom_add_length]; exact hm) hx2

/-- C1: for every Bloom filter built with bitset size `m > 0` and hash count
`k`, and every finite sequence of `Add` calls, `Contains x` is true for every
`x` that was added at any point, regardless of interleaved adds of other
items; moreover membership is monotone: an `Add` never un-confirms a
confirmed item (bits are only ever set, never cleared). -/
theorem bloom_no_false_negatives (m k : Nat) (items : List (List Nat)) (x : List Nat)
    (hm : 0 < m) (hx : x ∈ items) :
    (bloomAddAll (NewBloomFilter m k) items).Contains x = true ∧
      ∀ (bf : BloomFilter) (y : List Nat),
        bf.Contains x = true → (bf.Add y).Contains x = true := by
  refine ⟨?_, fun bf y h => bloom_contains_mono bf x y h⟩
  apply bloom_main items _ x ?_ hx
  simpa [NewBloomFilter] using hm

/-- Witness for C1 at a concrete filter: `m = 1`, `k = 1`, adds `[[0]]`. -/
theorem bloom_no_false_negatives_witness :
    (bloomAddAll (NewBloomFilter 1 1) [[0]]).Contains [0] = true ∧
      ∀ (bf : BloomFilter) (y : List Nat),
        bf.Contains [0] = true → (bf.Add y).Contains [0] = true :=
  bloom_no_false_negatives 1 1 [[0]] [0] (by decide) (by decide)

/-
Bloom sizing helpers (claim C4).
-/

/-- C4 (code bug): `CalculateBloomFilterBitSetSize` is missing the negation
that the claim and the package's own doc comment (`m = -n * ln(p) /
(ln(2))^2`) require. At the failing input `numItems = 100`,
`falsePositiveRate = 0.01` the code's float value is negative (≈ −958.5) —
the exact negation of the claimed positive size — so the final conversion of
a negative float64 to `uint` (implementation-defined in Go) cannot return
the claimed positive `m`. The hash-count helper does match the claim's
`k = (m/n)·ln 2`. -/
theorem bloom_sizing_negation_bug :
    CalculateBloomFilterBitSetSize 100 (1 / 100) < 0 ∧
      0 < claimedBloomBitSetSize 100 (1 / 100) ∧
      (∀ n p : ℝ, CalculateBloomFilterBitSetSize n p = -claimedBloomBitSetSize n p) ∧
      (∀ mm nn : ℝ, CalculateBloomFilterNumHashFunctions mm nn = mm / nn * Real.log 2) := by
  have hlogp : Real.log (1 / 100 : ℝ) < 0 := Real.log_neg (by norm_num) (by norm_num)
  have hlog2 : 0 < Real.log 2 := Real.log_pos (by norm_num)
  have hden : (0 : ℝ) < Real.log 2 ^ 2 := by positivity
  have hnum : (100 : ℝ) * Real.log (1 / 100) < 0 :=
    mul_neg_of_pos_of_neg (by norm_num) hlogp
  refine ⟨?_, ?_, ?_, fun mm nn => rfl⟩
  · exact div_neg_of_neg_of_pos hnum hden
  · unfold claimedBloomBitSetSize
    apply div_pos ?_ hden
    linarith
  · intro n p
    unfold CalculateBloomFilterBitSetSize claimedBloomBitSetSize
    rw [neg_div, neg_neg]

/-
HyperLogLog constructor (claim C8) and totality of Add/Count (claim C10).
-/

/-- C8: `NewHyperLogLog(p, hasher)` fails exactly when `p < 4` or `p > 16`,
and for `4 ≤ p ≤ 16` returns an instance with precision `p` whose `2 ^ p`
registers are all zero. -/
theorem hll_new_validation (m : Nat) (hasher : List Nat → Nat) :
    ((m < 4 ∨ 16 < m) → NewHyperLogLog m hasher = none) ∧
      (4 ≤ m → m ≤ 16 →
        NewHyperLogLog m hasher =
          some { m := m, registers := List.replicate (2 ^ m) 0, hasher := hasher }) := by
  constructor
  · intro h
    unfold NewHyperLogLog
    rw [if_pos (by omega)]
  · intro h4 h16
    unfold NewHyperLogLog
    rw [if_neg (by omega)]

/-- Witness for C8: `New 3` and `New 17` fail, `New 4` and `New 16` succeed
with all-zero registers. -/
theorem hll_new_validation_witness :
    NewHyperLogLog 3 (fun _ => 0) = none ∧
      NewHyperLogLog 17 (fun _ => 0) = none ∧
      NewHyperLogLog 4 (fun _ => 0) =
        some { m := 4, registers := List.replicate (2 ^ 4) 0, hasher := fun _ => 0 } ∧
      NewHyperLogLog 16 (fun _ => 0) =
        some { m := 16, registers := List.replicate (2 ^ 16) 0, hasher := fun _ => 0 } :=
  ⟨(hll_new_validation 3 (fun _ => 0)).1 (by omega),
   (hll_new_validation 17 (fun _ => 0)).1 (by omega),
   (hll_new_validation 4 (fun _ => 0)).2 (by omega) (by omega),
   (hll_new_validation 16 (fun _ => 0)).2 (by omega) (by omega)⟩

/-- C10: on every instance returned by `NewHyperLogLog` the register count is
`2 ^ m`, and on every state with that shape the register index computed by
`Add` (the low `m` bits of the 64-bit hash) is strictly below the register
count — the register access is in bounds — and `Add` preserves the shape, so
iterated `Add`s (and `Count`, which only folds over the register list and
indexes nothing) can never reach an error or panic. -/
theorem hll_total_safety :
    (∀ (p : Nat) (hasher : List Nat → Nat) (h0 : HyperLogLog),
        NewHyperLogLog p hasher = some h0 → h0.registers.length = 2 ^ h0.m) ∧
      (∀ (h : HyperLogLog) (item : List Nat), h.registers.length = 2 ^ h.m →
        hllIndex h item < h.registers.length ∧
          (h.Add item).m = h.m ∧
          (h.Add item).registers.length = 2 ^ (h.Add item).m) := by
  constructor
  · intro p hasher h0 hnew
    unfold NewHyperLogLog at hnew
    by_cases hc : p < 4 ∨ p > 16
    · rw [if_pos hc] at hnew
      exact Option.noConfusion hnew
    · rw [if_neg hc] at hnew
      injection hnew with h1
      rw [← h1]
      simp
  · intro h item hlen
    refine ⟨?_, ?_, ?_⟩
    · unfold hllIndex
      rw [Nat.and_pow_two_sub_one_eq_mod, hlen]
      exact Nat.mod_lt _ (Nat.pow_pos (by decide))
    · unfold HyperLogLog.Add
      split <;> rfl
    · unfold HyperLogLog.Add
      split
      · simpa using hlen
      · exact hlen

/-- Witness for C10 at a concrete precision-4 instance. -/
theorem hll_total_safety_witness :
    hllIndex hllW [] < hllW.registers.length ∧
      (hllW.Add []).registers.length = 2 ^ (hllW.Add []).m :=
  ⟨(hll_total_safety.2 hllW [] (by decide)).1,
   (hll_total_safety.2 hllW [] (by decide)).2.2⟩

/-
HyperLogLog Add / getRank (claim C5).
-/

theorem getRankGo_ge : ∀ (fuel v rank : Nat), rank ≤ getRankGo v rank fuel := by
  intro fuel
  induction fuel with
  | zero =>
    intro v rank
    unfold getRankGo
    split
    · exact Nat.le_refl _
    · exact Nat.le_refl _
  | succ f ih =>
    intro v rank
    unfold getRankGo
    split
    · exact Nat.le_trans (Nat.le_succ rank) (ih (v / 2) (rank + 1))
    · exact Nat.le_refl _

theorem getRankGo_le : ∀ (fuel v rank : Nat), getRankGo v rank fuel ≤ rank + fuel := by
  intro fuel
  induction fuel with
  | zero =>
    intro v rank
    unfold getRankGo
    split
    · exact Nat.le_refl _
    · exact Nat.le_refl _
  | succ f ih =>
    intro v rank
    unfold getRankGo
    split
    · exact Nat.le_trans (ih (v / 2) (rank + 1)) (by omega)
    · exact Nat.le_add_right _ _

theorem getRankGo_zero_val : ∀ (fuel rank : Nat), getRankGo 0 rank fuel = rank + fuel := by
  intro fuel
  induction fuel with
  | zero => intro rank; rfl
  | succ f ih =>
    intro rank
    show getRankGo 0 rank (f + 1) = rank + (f + 1)
    unfold getRankGo
    rw [if_pos (by decide : (0 : Nat) % 2 = 0)]
    show getRankGo (0 / 2) (rank + 1) f = rank + (f + 1)
    rw [Nat.zero_div, ih]
    omega

theorem getRankGo_first_bit : ∀ (fuel v rank : Nat), v ≠ 0 → v < 2 ^ fuel →
    v % 2 ^ (getRankGo v rank fuel - rank) = 0 ∧
      v / 2 ^ (getRankGo v rank fuel - rank) % 2 = 1 := by
  intro fuel
  induction fuel with
  | zero =>
    intro v rank hv hlt
    exact absurd (Nat.lt_one_iff.mp (by simpa using hlt)) hv
  | succ f ih =>
    intro v rank hv hlt
    by_cases he : v % 2 = 0
    · have hv2 : v / 2 ≠ 0 := by omega
      have hlt2 : v / 2 < 2 ^ f := by
        have hp : (2 : Nat) ^ (f + 1) = 2 ^ f * 2 := by rw [Nat.pow_succ]
        omega
      have heq : getRankGo v rank (f + 1) = getRankGo (v / 2) (rank + 1) f := by
        conv_lhs => unfold getRankGo
        rw [if_pos he]
      obtain ⟨h1, h2⟩ := ih (v / 2) (rank + 1) hv2 hlt2
      have hge : rank + 1 ≤ getRankGo (v / 2) (rank + 1) f := getRankGo_ge f (v / 2) (rank + 1)
      rw [heq]
      have hj : getRankGo (v / 2) (rank + 1) f - rank =
          (getRankGo (v / 2) (rank + 1) f - (rank + 1)) + 1 := by omega
      rw [hj]
      have hw : v = 2 * (v / 2) := by omega
      constructor
      · calc v % 2 ^ ((getRankGo (v / 2) (rank + 1) f - (rank + 1)) + 1)
            = (2 * (v / 2)) % (2 * 2 ^ (getRankGo (v / 2) (rank + 1) f - (rank + 1))) := by
              rw [← hw, pow_succ']
          _ = 2 * ((v / 2) % 2 ^ (getRankGo (v / 2) (rank + 1) f - (rank + 1))) :=
              Nat.mul_mod_mul_left 2 _ _
          _ = 0 := by rw [h1]
      · rw [pow_succ', ← Nat.div_div_eq_div_mul]
        exact h2
    · have heq : getRankGo v rank (f + 1) = rank := by
        unfold getRankGo
        rw [if_neg he]
      rw [heq, Nat.sub_self, pow_zero]
      exact ⟨Nat.mod_one v, by rw [Nat.div_one]; omega⟩

/-- C5 counterexample: on a fresh precision-4 filter whose hasher returns 0,
adding an item leaves 60 zero bits after the 4 index bits, and the code
computes rank 61 — one beyond the cap of `64 - p = 60` stated by the claim —
and stores 61 in register 0. -/
theorem hll_rank_cap_counterexample :
    hllRank hllC5ex [] = 61 ∧ 64 - hllC5ex.m = 60 ∧
      (hllC5ex.Add []).registers.getD 0 0 = 61 := by
  refine ⟨by decide, by decide, by decide⟩

/-- C5 (amended): `Add` uses the low `p` bits of the 64-bit hash as register
index (always in bounds), and the rank of the remaining `64-p` bits, where
the rank is the position of the first set bit counted from 1 — which never
exceeds `64-p` when a set bit exists — and is `64-p+1` (not `64-p`) when the
remaining bits are all zero; the register is updated exactly when the rank
exceeds it, so it holds the maximum rank ever observed and registers are
monotonically non-decreasing. -/
theorem hll_add_max_rank (h : HyperLogLog) (item : List Nat)
    (hlen : h.registers.length = 2 ^ h.m) (hm : h.m ≤ 64) :
    hllIndex h item < h.registers.length ∧
      (h.Add item).registers.getD (hllIndex h item) 0 =
        max (h.registers.getD (hllIndex h item) 0) (hllRank h item) ∧
      (∀ i, h.registers.getD i 0 ≤ (h.Add item).registers.getD i 0) ∧
      hllRank h item ≤ 64 - h.m + 1 ∧
      (hllShifted h item = 0 → hllRank h item = 64 - h.m + 1) ∧
      (hllShifted h item ≠ 0 →
        hllShifted h item % 2 ^ (hllRank h item - 1) = 0 ∧
          hllShifted h item / 2 ^ (hllRank h item - 1) % 2 = 1 ∧
          hllRank h item ≤ 64 - h.m) := by
  have hidx : hllIndex h item < h.registers.length := by
    unfold hllIndex
    rw [Nat.and_pow_two_sub_one_eq_mod, hlen]
    exact Nat.mod_lt _ (Nat.pow_pos (by decide))
  have hshift : hllShifted h item < 2 ^ (64 - h.m) := by
    unfold hllShifted
    rw [Nat.shiftRight_eq_div_pow]
    rw [Nat.div_lt_iff_lt_mul (Nat.pow_pos (by decide))]
    calc hllHashVal h item < 2 ^ 64 := Nat.mod_lt _ (Nat.pow_pos (by decide))
      _ = 2 ^ (64 - h.m + h.m) := by rw [Nat.sub_add_cancel hm]
      _ = 2 ^ (64 - h.m) * 2 ^ h.m := by rw [pow_add]
  refine ⟨hidx, ?_, ?_, ?_, ?_, ?_⟩
  · unfold HyperLogLog.Add
    by_cases hgt : hllRank h item > h.registers.getD (hllIndex h item) 0
    · rw [if_pos hgt]
      show (h.registers.set (hllIndex h item) (hllRank h item)).getD (hllIndex h item) 0 = _
      rw [listGetDSetSelf _ _ _ _ hidx, Nat.max_eq_right (Nat.le_of_lt hgt)]
    · rw [if_neg hgt, Nat.max_eq_left (Nat.le_of_not_lt hgt)]
  · intro i
    unfold HyperLogLog.Add
    by_cases hgt : hllRank h item > h.registers.getD (hllIndex h item) 0
    · rw [if_pos hgt]
      show _ ≤ (h.registers.set (hllIndex h item) (hllRank h item)).getD i 0
      by_cases hi : hllIndex h item = i
      · rw [← hi, listGetDSetSelf _ _ _ _ hidx]
        exact Nat.le_of_lt hgt
      · rw [listGetDSetNe _ _ _ _ _ hi]
    · rw [if_neg hgt]
  · unfold hllRank getRank
    exact Nat.le_trans (getRankGo_le _ _ _) (by omega)
  · intro hz
    unfold hllRank getRank
    rw [hz, getRankGo_zero_val]
    omega
  · intro hnz
    obtain ⟨h1, h2⟩ := getRankGo_first_bit (64 - h.m) (hllShifted h item) 1 hnz hshift
    have hrk : getRankGo (hllShifted h item) 1 (64 - h.m) = hllRank h item := rfl
    rw [hrk] at h1 h2
    refine ⟨h1, h2, ?_⟩
    have hple : 2 ^ (hllRank h item - 1) ≤ hllShifted h item := by
      by_contra hcon
      rw [Nat.div_eq_of_lt (Nat.lt_of_not_le hcon)] at h2
      simp at h2
    have : 2 ^ (hllRank h item - 1) < 2 ^ (64 - h.m) := Nat.lt_of_le_of_lt hple hshift
    have hlt2 : hllRank h item - 1 < 64 - h.m := (Nat.pow_lt_pow_iff_right (by decide)).mp this
    have hge1 : 1 ≤ hllRank h item := by
      unfold hllRank getRank
      exact getRankGo_ge _ _ _
    omega

/-- Witness for C5 (amended) at a concrete precision-4 instance. -/
theorem hll_add_max_rank_witness :
    hllW.registers.length = 2 ^ hllW.m ∧
      (hllW.Add [2]).registers.getD (hllIndex hllW [2]) 0 =
        max (hllW.registers.getD (hllIndex hllW [2]) 0) (hllRank hllW [2]) :=
  ⟨by decide, (hll_add_max_rank hllW [2] (by decide) (by decide)).2.1⟩

/-
Cuckoo filter helper lemmas (claims C2, C6, C7, C9).
-/

theorem listGetDReplicate {α : Type} (d : α) : ∀ (n i : Nat), (List.replicate n d).getD i d = d := by
  intro n
  induction n with
  | zero => intro i; rfl
  | succ k ih =>
    intro i
    cases i with
    | zero => rfl
    | succ j => exact ih j

theorem cuckoo_hash_lt (cf : CuckooFilter) (item : List Nat) (seed : Nat)
    (hpos : 0 < cf.Size) : cf.hash item seed < cf.Size :=
  Nat.mod_lt _ hpos

theorem cuckoo_fingerprint_eq (cf : CuckooFilter) (item : List Nat)
    (hpos : 0 < cf.Size) (h32 : cf.Size ≤ 2 ^ 32) :
    cf.fingerprint item = cf.hash item 0 := by
  unfold CuckooFilter.fingerprint FpSize
  rw [Nat.and_pow_two_sub_one_eq_mod]
  exact Nat.mod_eq_of_lt (Nat.lt_of_lt_of_le (cuckoo_hash_lt cf item 0 hpos) h32)

theorem cuckooInv_fp (cf : CuckooFilter) (hinv : CuckooInv cf) (i : Nat) (b : Bucket)
    (hi : i < cf.BucketArr.length) (hb : bucketGet cf.BucketArr i = some b) :
    b.Fingerprint = i := by
  have h := hinv.2.2.2.2 i hi
  rw [hb] at h
  simpa [bucketOK] using h

theorem cuckoo_matches_some (bs : List (Option Bucket)) (i fp : Nat)
    (h : bucketMatches bs i fp = true) :
    ∃ b, bucketGet bs i = some b ∧ b.Fingerprint = fp := by
  unfold bucketMatches at h
  cases hg : bucketGet bs i with
  | none => rw [hg] at h; exact Bool.noConfusion h
  | some b =>
    rw [hg] at h
    exact ⟨b, rfl, by simpa using h⟩

theorem cuckoo_contains_false_empty (cf : CuckooFilter) (item : List Nat)
    (hinv : CuckooInv cf)
    (hc : cf.contains item (cf.hash item 0) (cf.hash item (cf.hash item 0)) = false) :
    bucketGet cf.BucketArr (cf.hash item 0) = none := by
  cases hb : bucketGet cf.BucketArr (cf.hash item 0) with
  | none => rfl
  | some b =>
    exfalso
    have hlt : cf.hash item 0 < cf.BucketArr.length := by
      rw [hinv.2.2.2.1]
      exact cuckoo_hash_lt cf item 0 hinv.1
    have hfb : b.Fingerprint = cf.hash item 0 := cuckooInv_fp cf hinv _ b hlt hb
    have hfp : cf.fingerprint item = cf.hash item 0 :=
      cuckoo_fingerprint_eq cf item hinv.1 hinv.2.1
    unfold CuckooFilter.contains at hc
    rw [Bool.or_eq_false_iff] at hc
    have h1 := hc.1
    unfold bucketMatches at h1
    rw [hb] at h1
    simp [hfb, hfp] at h1

theorem cuckooAddOfContains (cf : CuckooFilter) (x : List Nat)
    (h : cf.Contains x = true) : cf.Add x = some (true, cf) := by
  have h2 : cf.contains x (cf.hash x 0) (cf.hash x (cf.hash x 0)) = true := h
  simp only [CuckooFilter.Add, CuckooFilter.insert]
  rw [if_pos h2]

theorem cuckoo_add_spec (cf : CuckooFilter) (x : List Nat) (hinv : CuckooInv cf) :
    (cf.Contains x = true ∧ cf.Add x = some (true, cf)) ∨
      (cf.Contains x = false ∧
        cf.Add x =
          some (true,
            { cf with
              BucketArr := cf.BucketArr.set (cf.hash x 0) (some ⟨cf.fingerprint x⟩) })) := by
  by_cases hc : cf.Contains x = true
  · exact Or.inl ⟨hc, cuckooAddOfContains cf x hc⟩
  · have hcf : cf.Contains x = false := Bool.eq_false_iff.mpr hc
    refine Or.inr ⟨hcf, ?_⟩
    have hempty : bucketGet cf.BucketArr (cf.hash x 0) = none :=
      cuckoo_contains_false_empty cf x hinv hcf
    have hk : 0 < cf.MaxKicks := hinv.2.2.1
    obtain ⟨n, hn⟩ : ∃ n, cf.MaxKicks = n + 1 := ⟨cf.MaxKicks - 1, by omega⟩
    have hstep : insertItemIntoBucket cf.BucketArr (cf.fingerprint x) (cf.hash x 0) =
        (true, cf.BucketArr.set (cf.hash x 0) (some ⟨cf.fingerprint x⟩)) := by
      unfold insertItemIntoBucket
      rw [hempty]
    have hgo : insertItemGo (cf.hash x 0) (cf.hash x (cf.hash x 0)) (cf.hash x (cf.hash x 0))
        (cf.fingerprint x) (n + 1) cf.BucketArr =
        some (true, cf.BucketArr.set (cf.hash x 0) (some ⟨cf.fingerprint x⟩)) := by
      conv_lhs => unfold insertItemGo
      rw [hstep]
    have hc2 : ¬cf.contains x (cf.hash x 0) (cf.hash x (cf.hash x 0)) = true := hc
    simp only [CuckooFilter.Add, CuckooFilter.insert]
    rw [if_neg hc2, if_pos trivial]
    unfold CuckooFilter.insertItem
    rw [hn, hgo]

theorem cuckooInv_set_some (cf : CuckooFilter) (hinv : CuckooInv cf) (i fp : Nat)
    (hfpi : fp = i) :
    CuckooInv { cf with BucketArr := cf.BucketArr.set i (some ⟨fp⟩) } := by
  rw [hfpi]
  obtain ⟨hpos, h32, hk, hlen, hok⟩ := hinv
  refine ⟨hpos, h32, hk, by simpa using hlen, ?_⟩
  intro j hj
  rw [List.length_set] at hj
  show bucketOK (bucketGet (cf.BucketArr.set i (some ⟨i⟩)) j) j = true
  unfold bucketGet
  by_cases hij : i = j
  · subst hij
    rw [listGetDSetSelf _ _ _ _ hj]
    simp [bucketOK]
  · rw [listGetDSetNe _ _ _ _ _ hij]
    exact hok j hj

theorem cuckooInv_set_none (cf : CuckooFilter) (hinv : CuckooInv cf) (i : Nat) :
    CuckooInv { cf with BucketArr := cf.BucketArr.set i none } := by
  obtain ⟨hpos, h32, hk, hlen, hok⟩ := hinv
  refine ⟨hpos, h32, hk, by simpa using hlen, ?_⟩
  intro j hj
  rw [List.length_set] at hj
  show bucketOK (bucketGet (cf.BucketArr.set i none) j) j = true
  unfold bucketGet
  by_cases hij : i = j
  · subst hij
    rw [listGetDSetSelf _ _ _ _ hj]
    rfl
  · rw [listGetDSetNe _ _ _ _ _ hij]
    exact hok j hj

theorem cuckoo_after_insert_contains (cf : CuckooFilter) (x : List Nat)
    (hpos : 0 < cf.Size) (hlen : cf.BucketArr.length = cf.Size) :
    ({ cf with
        BucketArr := cf.BucketArr.set (cf.hash x 0) (some ⟨cf.fingerprint x⟩) } :
      CuckooFilter).Contains x = true := by
  have h1lt : cf.hash x 0 < cf.BucketArr.length := by
    rw [hlen]
    exact cuckoo_hash_lt cf x 0 hpos
  show (bucketMatches (cf.BucketArr.set (cf.hash x 0) (some ⟨cf.fingerprint x⟩))
      (cf.hash x 0) (cf.fingerprint x)
    || bucketMatches (cf.BucketArr.set (cf.hash x 0) (some ⟨cf.fingerprint x⟩))
      (cf.hash x (cf.hash x 0)) (cf.fingerprint x)) = true
  rw [Bool.or_eq_true]
  left
  unfold bucketMatches bucketGet
  rw [listGetDSetSelf _ _ _ _ h1lt]
  simp

theorem cuckoo_after_delete_not_contains (cf : CuckooFilter) (x : List Nat)
    (hinv : CuckooInv cf) :
    ({ cf with BucketArr := cf.BucketArr.set (cf.hash x 0) none } :
      CuckooFilter).Contains x = false := by
  have h1lt : cf.hash x 0 < cf.BucketArr.length := by
    rw [hinv.2.2.2.1]
    exact cuckoo_hash_lt cf x 0 hinv.1
  have h2lt : cf.hash x (cf.hash x 0) < cf.BucketArr.length := by
    rw [hinv.2.2.2.1]
    exact cuckoo_hash_lt cf x _ hinv.1
  have hfp : cf.fingerprint x = cf.hash x 0 :=
    cuckoo_fingerprint_eq cf x hinv.1 hinv.2.1
  show (bucketMatches (cf.BucketArr.set (cf.hash x 0) none) (cf.hash x 0) (cf.fingerprint x)
    || bucketMatches (cf.BucketArr.set (cf.hash x 0) none)
      (cf.hash x (cf.hash x 0)) (cf.fingerprint x)) = false
  rw [Bool.or_eq_false_iff]
  constructor
  · unfold bucketMatches bucketGet
    rw [listGetDSetSelf _ _ _ _ h1lt]
  · by_cases heq : cf.hash x (cf.hash x 0) = cf.hash x 0
    · rw [heq]
      unfold bucketMatches bucketGet
      rw [listGetDSetSelf _ _ _ _ h1lt]
    · unfold bucketMatches bucketGet
      rw [listGetDSetNe _ _ _ _ _ (fun h => heq h.symm)]
      cases hg : cf.BucketArr.getD (cf.hash x (cf.hash x 0)) none with
      | none => rfl
      | some b2 =>
        have hb2 : b2.Fingerprint = cf.hash x (cf.hash x 0) :=
          cuckooInv_fp cf hinv _ b2 h2lt hg
        simpa [hb2, hfp] using heq

theorem cuckoo_new_inv (size : Nat) (f : List Nat → Nat)
    (hpos : 0 < size) (h32 : size ≤ 2 ^ 32) :
    CuckooInv (NewCuckooFilter size f) := by
  have hk : 0 < (NewCuckooFilter size f).MaxKicks := by
    show 0 < MaxNumKicks
    decide
  have hlen : (NewCuckooFilter size f).BucketArr.length = (NewCuckooFilter size f).Size := by
    show (List.replicate size (none : Option Bucket)).length = size
    simp
  refine ⟨hpos, h32, hk, hlen, ?_⟩
  intro i hi
  show bucketOK (bucketGet (List.replicate size none) i) i = true
  unfold bucketGet
  rw [listGetDReplicate]
  rfl

/-
Claim theorems for the cuckoo filter.
-/

/-- C2: for every cuckoo filter reachable from `NewCuckooFilter` (the
`CuckooInv` invariant, established at construction and preserved by every
`Add`/`Delete`): immediately after `Add(item)` returns true, `Contains(item)`
is true, and immediately after `Delete(item)` returns true, `Contains(item)`
is false. -/
theorem cuckoo_roundtrip (cf : CuckooFilter) (x : List Nat) (hinv : CuckooInv cf) :
    (∀ (b : Bool) (cf2 : CuckooFilter), cf.Add x = some (b, cf2) →
        CuckooInv cf2 ∧ (b = true → cf2.Contains x = true)) ∧
      (∀ (b : Bool) (cf2 : CuckooFilter), cf.Delete x = (b, cf2) →
        CuckooInv cf2 ∧ (b = true → cf2.Contains x = false)) ∧
      (∀ (size : Nat) (f : List Nat → Nat), 0 < size → size ≤ 2 ^ 32 →
        CuckooInv (NewCuckooFilter size f)) := by
  refine ⟨?_, ?_, fun size f hp h32 => cuckoo_new_inv size f hp h32⟩
  · intro b cf2 hAdd
    rcases cuckoo_add_spec cf x hinv with ⟨hct, hspec⟩ | ⟨hcf, hspec⟩
    · rw [hspec] at hAdd
      simp only [Option.some.injEq, Prod.mk.injEq] at hAdd
      obtain ⟨hb, hcf2⟩ := hAdd
      subst hcf2
      exact ⟨hinv, fun _ => hct⟩
    · rw [hspec] at hAdd
      simp only [Option.some.injEq, Prod.mk.injEq] at hAdd
      obtain ⟨hb, hcf2⟩ := hAdd
      subst hcf2
      have hfp : cf.fingerprint x = cf.hash x 0 :=
        cuckoo_fingerprint_eq cf x hinv.1 hinv.2.1
      constructor
      · exact cuckooInv_set_some cf hinv (cf.hash x 0) (cf.fingerprint x) hfp
      · intro _
        exact cuckoo_after_insert_contains cf x hinv.1 hinv.2.2.2.1
  · intro b cf2 hDel
    by_cases hm1 : bucketMatches cf.BucketArr (cf.hash x 0) (cf.fingerprint x) = true
    · have hspec : cf.Delete x =
          (true, { cf with BucketArr := cf.BucketArr.set (cf.hash x 0) none }) := by
        simp only [CuckooFilter.Delete]
        rw [if_pos hm1]
      rw [hspec] at hDel
      simp only [Prod.mk.injEq] at hDel
      obtain ⟨hb, hcf2⟩ := hDel
      subst hcf2
      exact ⟨cuckooInv_set_none cf hinv _,
        fun _ => cuckoo_after_delete_not_contains cf x hinv⟩
    · by_cases hm2 : bucketMatches cf.BucketArr (cf.hash x (cf.hash x 0)) (cf.fingerprint x) = true
      · exfalso
        obtain ⟨b2, hg2, hfb2⟩ := cuckoo_matches_some _ _ _ hm2
        have h2lt : cf.hash x (cf.hash x 0) < cf.BucketArr.length := by
          rw [hinv.2.2.2.1]
          exact cuckoo_hash_lt cf x _ hinv.1
        have hidx : b2.Fingerprint = cf.hash x (cf.hash x 0) :=
          cuckooInv_fp cf hinv _ b2 h2lt hg2
        have hfp : cf.fingerprint x = cf.hash x 0 :=
          cuckoo_fingerprint_eq cf x hinv.1 hinv.2.1
        have heq : cf.hash x (cf.hash x 0) = cf.hash x 0 := by
          rw [← hidx, hfb2, hfp]
        rw [heq] at hm2
        exact hm1 hm2
      · have hspec : cf.Delete x = (false, cf) := by
          simp only [CuckooFilter.Delete]
          rw [if_neg hm1, if_neg hm2]
        rw [hspec] at hDel
        simp only [Prod.mk.injEq] at hDel
        obtain ⟨hb, hcf2⟩ := hDel
        subst hcf2
        exact ⟨hinv, fun ht => by rw [← hb] at ht; exact Bool.noConfusion ht⟩

/-- Witness for C2: on a concrete 4-bucket filter, `Add [1]` returns true and
`Contains [1]` holds; then `Delete [1]` returns true and `Contains [1]` is
false. -/
theorem cuckoo_roundtrip_witness :
    CuckooInv cuckooW ∧ cuckooW.Add [1] = some (true, cuckooW1) ∧
      cuckooW1.Contains [1] = true ∧ cuckooW1.Delete [1] = (true, cuckooW2) ∧
      cuckooW2.Contains [1] = false := by
  have hinv : CuckooInv cuckooW := by unfold CuckooInv; decide
  have hAdd : cuckooW.Add [1] = some (true, cuckooW1) := rfl
  have h1 := ((cuckoo_roundtrip cuckooW [1] hinv).1 true cuckooW1 hAdd)
  have hDel : cuckooW1.Delete [1] = (true, cuckooW2) := rfl
  have h2 := ((cuckoo_roundtrip cuckooW1 [1] h1.1).2.1 true cuckooW2 hDel)
  exact ⟨hinv, hAdd, h1.2 rfl, hDel, h2.2 rfl⟩

/-- C6: if `Contains x` is already true then `Add x` returns true leaving the
filter (in particular the entire bucket array) unchanged; and on any filter
satisfying the reachable-state invariant, `Add x` returns true, after it
`Contains x` is true, and a second `Add x` returns true without changing
anything. -/
theorem cuckoo_idempotent_add (cf : CuckooFilter) (x : List Nat) :
    (cf.Contains x = true → cf.Add x = some (true, cf)) ∧
      (CuckooInv cf → ∃ cf2, cf.Add x = some (true, cf2) ∧ CuckooInv cf2 ∧
        cf2.Contains x = true ∧ cf2.Add x = some (true, cf2)) := by
  refine ⟨fun h => cuckooAddOfContains cf x h, fun hinv => ?_⟩
  rcases cuckoo_add_spec cf x hinv with ⟨hct, hspec⟩ | ⟨hcf, hspec⟩
  · exact ⟨cf, hspec, hinv, hct, hspec⟩
  · refine ⟨_, hspec, ?_, ?_, ?_⟩
    · have hfp : cf.fingerprint x = cf.hash x 0 :=
        cuckoo_fingerprint_eq cf x hinv.1 hinv.2.1
      exact cuckooInv_set_some cf hinv (cf.hash x 0) (cf.fingerprint x) hfp
    · exact cuckoo_after_insert_contains cf x hinv.1 hinv.2.2.2.1
    · exact cuckooAddOfContains _ x (cuckoo_after_insert_contains cf x hinv.1 hinv.2.2.2.1)

/-- Witness for C6: concrete double add. -/
theorem cuckoo_idempotent_add_witness :
    cuckooW1.Contains [1] = true ∧ cuckooW1.Add [1] = some (true, cuckooW1) := by
  have hc : cuckooW1.Contains [1] = true := by decide
  exact ⟨hc, (cuckoo_idempotent_add cuckooW1 [1]).1 hc⟩

/-
Claim C7: termination and no-panic of the kick loop.
-/

theorem insertItemGo_isSome (h1v h2v : Nat) : ∀ (fuel fp : Nat) (bs : List (Option Bucket)),
    (insertItemGo h1v h2v h2v fp fuel bs).isSome = true := by
  intro fuel
  induction fuel with
  | zero => intro fp bs; rfl
  | succ f ih =>
    intro fp bs
    cases hA : insertItemIntoBucket bs fp h1v with
    | mk bA bsA =>
      cases bA with
      | true =>
        unfold insertItemGo
        rw [hA]
        rfl
      | false =>
        cases hB : insertItemIntoBucket bs fp h2v with
        | mk bB bsB =>
          cases bB with
          | true =>
            unfold insertItemGo
            rw [hA, hB]
            rfl
          | false =>
            have hg : ∃ b, bucketGet bs h2v = some b := by
              unfold insertItemIntoBucket at hB
              cases hgg : bucketGet bs h2v with
              | none => rw [hgg] at hB; simp at hB
              | some b => exact ⟨b, rfl⟩
            obtain ⟨b, hgb⟩ := hg
            unfold insertItemGo
            rw [hA, hB, hgb]
            exact ih b.Fingerprint (bs.set h2v (some ⟨fp⟩))

/-- C7: `Add` always terminates. The kick loop runs on fuel
`MaxKicks = MaxNumKicks = 500`; when the fuel is exhausted it returns false
(capacity exhaustion, not an error); and the loop never panics: the
nil-dereference branch of the swap (modelled by `none`) is unreachable
because the swap only runs after the insert attempt at `hash2` — the very
bucket the swap dereferences — has failed on an occupied bucket. All bucket
indices used are below the array length. -/
theorem cuckoo_add_terminates :
    MaxNumKicks = 500 ∧
      (∀ (size : Nat) (f : List Nat → Nat), (NewCuckooFilter size f).MaxKicks = MaxNumKicks) ∧
      (∀ (h1v h2v hsw fp : Nat) (bs : List (Option Bucket)),
        insertItemGo h1v h2v hsw fp 0 bs = some (false, bs)) ∧
      (∀ (cf : CuckooFilter) (item : List Nat), 0 < cf.Size → cf.BucketArr.length = cf.Size →
        (cf.Add item).isSome = true ∧ ∀ seed, cf.hash item seed < cf.BucketArr.length) := by
  refine ⟨rfl, fun _ _ => rfl, fun _ _ _ _ _ => rfl, ?_⟩
  intro cf item hpos hlen
  constructor
  · simp only [CuckooFilter.Add, CuckooFilter.insert]
    by_cases hc : cf.contains item (cf.hash item 0) (cf.hash item (cf.hash item 0)) = true
    · rw [if_pos hc]
      rfl
    · rw [if_neg hc, if_pos trivial]
      unfold CuckooFilter.insertItem
      cases hgo : insertItemGo (cf.hash item 0) (cf.hash item (cf.hash item 0))
          (cf.hash item (cf.hash item 0)) (cf.fingerprint item) cf.MaxKicks cf.BucketArr with
      | none =>
        have hs := insertItemGo_isSome (cf.hash item 0) (cf.hash item (cf.hash item 0))
          cf.MaxKicks (cf.fingerprint item) cf.BucketArr
        rw [hgo] at hs
        simp at hs
      | some p =>
        cases p with
        | mk b bs => rfl
  · intro seed
    rw [hlen]
    exact cuckoo_hash_lt cf item seed hpos

/-- Witness for C7 on a concrete filter. -/
theorem cuckoo_add_terminates_witness :
    (cuckooW.Add [2]).isSome = true ∧ cuckooW.hash [2] 0 < cuckooW.BucketArr.length :=
  ⟨(cuckoo_add_terminates.2.2.2 cuckooW [2] (by decide) (by decide)).1,
   (cuckoo_add_terminates.2.2.2 cuckooW [2] (by decide) (by decide)).2 0⟩

/-- C9: the fingerprint of an item is exactly its first candidate bucket
index `hash1 = hash(item, 0)`: the internal hash already reduces modulo
`Size`, and since `Size` is a uint32 (`Size ≤ 2 ^ 32`), the 32-bit
fingerprint mask is a no-op on it. Hence every fingerprint value is strictly
below `Size`, and under the reachable-state invariant every stored
fingerprint is strictly below `Size` as well. -/
theorem cuckoo_fingerprint_hash1 (cf : CuckooFilter) (item : List Nat)
    (hpos : 0 < cf.Size) (h32 : cf.Size ≤ 2 ^ 32) :
    cf.fingerprint item = cf.hash item 0 ∧ cf.fingerprint item < cf.Size ∧
      (CuckooInv cf → ∀ i, i < cf.BucketArr.length →
        ∀ b, bucketGet cf.BucketArr i = some b → b.Fingerprint < cf.Size) := by
  have hfp := cuckoo_fingerprint_eq cf item hpos h32
  refine ⟨hfp, by rw [hfp]; exact cuckoo_hash_lt cf item 0 hpos, ?_⟩
  intro hinv i hi b hb
  have hib := cuckooInv_fp cf hinv i b hi hb
  rw [hib]
  exact hinv.2.2.2.1 ▸ hi

/-- Witness for C9 on a concrete filter. -/
theorem cuckoo_fingerprint_hash1_witness :
    cuckooW.fingerprint [1] = cuckooW.hash [1] 0 ∧ cuckooW.fingerprint [1] < cuckooW.Size :=
  ⟨(cuckoo_fingerprint_hash1 cuckooW [1] (by decide) (by decide)).1,
   (cuckoo_fingerprint_hash1 cuckooW [1] (by decide) (by decide)).2.1⟩

/-
HyperLogLog Count (claim C3).
-/

/-- C3 counterexample: with precision 4 and all 16 registers equal to 7,
`Σ 2^(-registers[i]) = 1/8`; the code's raw estimate is
`alpha * (1/sum)² = 0.673 * 64 = 43.072`, while the claim's formula
`alpha * m² / sum` gives `0.673 * 2048 = 1378.304`; neither correction branch
fires on either value, so `Count` returns 43 where the claim says the result
of the `alpha·m²/sum` pipeline (1378). -/
theorem hll_count_formula_counterexample :
    hllC3ex.CountReal = 0.673 * 64 ∧ claimedCountReal hllC3ex = 0.673 * 2048 ∧
      hllC3ex.CountReal ≠ claimedCountReal hllC3ex ∧ hllC3ex.Count = 43 := by
  have hsum : ((hllC3ex.registers.map fun v => (2 : ℝ) ^ (-(v : ℤ))).sum) = 1 / 8 := by
    show ((List.replicate 16 7).map fun v => (2 : ℝ) ^ (-(v : ℤ))).sum = 1 / 8
    rw [List.map_replicate, List.sum_replicate, nsmul_eq_mul]
    norm_num
  have halpha : getAlpha hllC3ex.m = 0.673 := by
    show getAlpha 4 = 0.673
    unfold getAlpha
    rw [if_pos rfl]
  have hlenR : ((hllC3ex.registers.length : ℕ) : ℝ) = 16 := by
    show (((List.replicate 16 7).length : ℕ) : ℝ) = 16
    simp
  have hzeros : hllZeros hllC3ex = 0 := by decide
  have hraw : hllRawEstimate hllC3ex = 0.673 * 64 := by
    unfold hllRawEstimate
    rw [hsum, halpha]
    norm_num
  have hcraw : claimedRawEstimate hllC3ex = 0.673 * 2048 := by
    unfold claimedRawEstimate
    rw [hsum, halpha, hlenR]
    norm_num
  have hcount : hllC3ex.CountReal = 0.673 * 64 := by
    simp only [HyperLogLog.CountReal]
    rw [hraw, hlenR, hzeros]
    rw [if_neg (by norm_num), if_neg (by norm_num)]
  have hclaimed : claimedCountReal hllC3ex = 0.673 * 2048 := by
    simp only [claimedCountReal]
    rw [hcraw, hlenR, hzeros]
    rw [if_neg (by norm_num), if_neg (by norm_num)]
  refine ⟨hcount, hclaimed, ?_, ?_⟩
  · rw [hcount, hclaimed]
    norm_num
  · unfold HyperLogLog.Count
    rw [hcount]
    have hfl : ⌊(0.673 * 64 : ℝ)⌋ = 43 := by
      rw [Int.floor_eq_iff]
      norm_num
    rw [hfl]
    rfl

/-- C3 (amended): on every state whose register count is at most `2 ^ 16`
(every constructible instance), `Count` computes the raw estimate
`alpha * (1 / Σ 2^(-registers[i]))²` — not `alpha·m²/Σ` — then applies
linear counting when the raw estimate is at most `2.5·m` and some register
is zero, applies the large-range correction when the raw estimate exceeds
`2^32/30`, and truncates the result to an unsigned integer. -/
theorem hll_count_amended (h : HyperLogLog) (hlen : h.registers.length ≤ 2 ^ 16) :
    h.CountReal = amendedCountReal h ∧ h.Count = (⌊amendedCountReal h⌋).toNat := by
  have hmain : h.CountReal = amendedCountReal h := by
    simp only [HyperLogLog.CountReal, amendedCountReal]
    by_cases h1 : hllRawEstimate h ≤ 2.5 * (h.registers.length : ℝ)
    · by_cases h2 : hllZeros h = 0
      · rw [if_pos h1, if_neg (show ¬hllZeros h ≠ 0 from fun hk => hk h2),
          if_neg (show ¬(hllRawEstimate h ≤ 2.5 * (h.registers.length : ℝ) ∧
            hllZeros h ≠ 0) from fun hand => hand.2 h2)]
        have hlenR : (h.registers.length : ℝ) ≤ 65536 := by
          have hc : (h.registers.length : ℝ) ≤ ((2 ^ 16 : ℕ) : ℝ) := by
            exact_mod_cast hlen
          calc (h.registers.length : ℝ) ≤ ((2 ^ 16 : ℕ) : ℝ) := hc
            _ = 65536 := by norm_num
        have hb : hllRawEstimate h ≤ 163840 := by
          calc hllRawEstimate h ≤ 2.5 * (h.registers.length : ℝ) := h1
            _ ≤ 2.5 * 65536 := by linarith
            _ = 163840 := by norm_num
        have ht : ¬(hllRawEstimate h > (2 ^ 32 : ℝ) / 30) := by
          push_neg
          calc hllRawEstimate h ≤ 163840 := hb
            _ ≤ (2 ^ 32 : ℝ) / 30 := by norm_num
        rw [if_neg ht]
      · have h2n : hllZeros h ≠ 0 := h2
        rw [if_pos h1, if_pos h2n,
          if_pos (show hllRawEstimate h ≤ 2.5 * (h.registers.length : ℝ) ∧
            hllZeros h ≠ 0 from ⟨h1, h2n⟩)]
    · rw [if_neg h1,
        if_neg (show ¬(hllRawEstimate h ≤ 2.5 * (h.registers.length : ℝ) ∧
          hllZeros h ≠ 0) from fun hand => h1 hand.1)]
  refine ⟨hmain, ?_⟩
  unfold HyperLogLog.Count
  rw [hmain]

/-- Witness for C3 (amended) at a concrete state. -/
theorem hll_count_amended_witness :
    hllC3ex.registers.length ≤ 2 ^ 16 ∧ hllC3ex.CountReal = amendedCountReal hllC3ex :=
  ⟨by decide, (hll_count_amended hllC3ex (by decide)).1⟩

end Gblink
